import Mathlib

/-!
# Verification of the `Template` experiment engine (`src/modules/experiment/template.py`)

Shallow embedding of the two-level concurrent orchestration engine:

* `Template.run` dispatches `n_exp` simulation tasks on a thread pool, waits
  for all of them (`as_completed`), reports each failed future, and calls
  `exp_postprocess` in a `finally` block.
* `Template.run_once sim` calls `generate_agents(sim)` (outside the `try`),
  then runs rounds `0 .. n_round-1` sequentially.  Round `r` runs the agent
  tasks on a pool of width `len(agents) if r < 4 else 1`, collects the
  successful `(agent_ind, result)` pairs in completion order, sorts them by
  agent index, increments the progress bar, and calls `round_postprocess`.
  Any exception in the round loop is caught; the `finally` block snapshots
  every agent's memories and calls `update_record` under `self.__lock`.

The embedding is parameterised by a `Behavior` describing the external
collaborators (which agent calls fail, which `round_postprocess` calls raise,
which `generate_agents` calls raise, the memory snapshots), and by oracles
giving the completion order of the agent futures within each round and the
serialization order in which simulations acquire the record lock.  The lock
makes each fold-in an atomic step, so the record is modelled as the sequence
of fold-in calls in lock-acquisition order.
-/

namespace ConsensusLLM

/-- Result values returned by `agent.answer` (opaque to the engine). -/
abbrev Res := Nat

/-- Memory snapshots returned by `agent.get_memories` (opaque to the engine). -/
abbrev Mem := List Nat

/-- External collaborator behaviour for one experiment, as consumed by
`Template.run` / `Template.run_once`:
* `nAgent`, `nRound`, `nExp` — `args.agents`, `args.rounds`, `args.n_exp`;
* `genFail s` — whether `generate_agents(s)` raises;
* `answerOk s r i` — whether agent `i`'s `answer` call in round `r` of
  simulation `s` succeeds (a failed future is logged and skipped);
* `answerVal s r i` — the result value when it succeeds (the agent returns
  its own index paired with this value);
* `postFail s r` — whether `round_postprocess(s, r, ...)` raises;
* `snap s` — the agent memory snapshots taken in simulation `s`'s cleanup. -/
structure Behavior where
  nAgent : Nat
  nRound : Nat
  nExp : Nat
  genFail : Nat → Bool
  answerOk : Nat → Nat → Nat → Bool
  answerVal : Nat → Nat → Nat → Res
  postFail : Nat → Nat → Bool
  snap : Nat → List Mem

/-- `n_thread = len(agents) if round < 4 else 1` — the round coordinator's
concurrency-width policy. -/
def width (a r : Nat) : Nat := if r < 4 then a else 1

/-- Ordering of collected pairs by agent index, the key used in
`sorted(results, key=lambda x: x[0])`. -/
def keyLE (a b : Nat × Res) : Prop := a.1 ≤ b.1

instance : DecidableRel keyLE := fun a b => Nat.decLe a.1 b.1

instance : IsTotal (Nat × Res) keyLE := ⟨fun a b => Nat.le_total a.1 b.1⟩

instance : IsTrans (Nat × Res) keyLE := ⟨fun _ _ _ h h' => Nat.le_trans h h'⟩

/-- Strict ordering by agent index. -/
def keyLT (a b : Nat × Res) : Prop := a.1 < b.1

instance : IsAntisymm (Nat × Res) keyLT :=
  ⟨fun _ _ h h' => absurd (Nat.lt_trans h h') (Nat.lt_irrefl _)⟩

/-- `sorted(results, key=lambda x: x[0])`: a stable sort of the collected
pairs by agent index. -/
def sortPairs (l : List (Nat × Res)) : List (Nat × Res) := l.insertionSort keyLE

/-- The successful `(idx, result)` pairs drained from the `results` queue,
in the order `o` in which the agent futures completed: future `i` contributes
`(i, answerVal s r i)` when `answer` succeeded and is skipped (after logging)
when it raised. -/
def collect (B : Behavior) (o : List Nat) (s r : Nat) : List (Nat × Res) :=
  o.filterMap fun i =>
    if B.answerOk s r i then some (i, B.answerVal s r i) else none

/-- The RoundResult handed to `round_postprocess`: the collected pairs sorted
ascending by agent index. -/
def roundResult (B : Behavior) (o : List Nat) (s r : Nat) : List (Nat × Res) :=
  sortPairs (collect B o s r)

/-- Outcome of the round loop of `run_once`:
* `posts` — the `(round, RoundResult)` arguments actually passed to
  `round_postprocess`, in invocation order;
* `progress` — how many times `progress.update(1)` ran;
* `aborted` — whether an exception escaped some round body into the
  `except` clause (abandoning the remaining rounds). -/
structure RoundsAcc where
  posts : List (Nat × List (Nat × Res))
  progress : Nat
  aborted : Bool
  deriving Repr, DecidableEq

/-- The sequential `for round in range(...)` loop of `run_once`, over an
explicit list of remaining round indices.  `ord s r` is the completion order
of the agent futures of round `r`.  Constructing a `ThreadPoolExecutor` of
width `0` raises `ValueError` before any task is submitted, before the
progress update and before `round_postprocess`; a raising `round_postprocess`
aborts after the round was counted. -/
def runRounds (B : Behavior) (ord : Nat → Nat → List Nat) (s : Nat) :
    List Nat → RoundsAcc
  | [] => ⟨[], 0, false⟩
  | r :: rs =>
    if width B.nAgent r = 0 then ⟨[], 0, true⟩
    else
      let res := roundResult B (ord s r) s r
      if B.postFail s r then ⟨[(r, res)], 1, true⟩
      else
        let acc := runRounds B ord s rs
        ⟨(r, res) :: acc.posts, acc.progress + 1, acc.aborted⟩

/-- Observable outcome of `run_once sim`:
* `raised` — the call raised out of `run_once` (only `generate_agents` can do
  this: it sits outside the `try`, so nothing downstream runs);
* `posts`, `progress` — as in `RoundsAcc`;
* `folds` — how many times the `finally` block ran `update_record`;
* `entry` — the fold-in performed under the lock: the simulation index with
  the agent memory snapshots, when the `finally` block ran. -/
structure SimOutcome where
  raised : Bool
  posts : List (Nat × List (Nat × Res))
  progress : Nat
  folds : Nat
  entry : Option (Nat × List Mem)
  deriving Repr, DecidableEq

/-- `Template.run_once(simulation_ind, progress)`. -/
def runOnce (B : Behavior) (ord : Nat → Nat → List Nat) (s : Nat) : SimOutcome :=
  if B.genFail s then ⟨true, [], 0, 0, none⟩
  else
    let acc := runRounds B ord s (List.range B.nRound)
    ⟨false, acc.posts, acc.progress, 1, some (s, B.snap s)⟩

/-- The shared record after all simulations have finished, given the order
`π` in which simulations acquired `self.__lock` (each fold-in holds the lock
for its whole duration, so the record is the serialization of the atomic
fold-in calls; a simulation whose `run_once` raised never reaches its
`finally` block and contributes nothing). -/
def record (B : Behavior) (ord : Nat → Nat → List Nat) (π : List Nat) :
    List (Nat × List Mem) :=
  π.filterMap fun s => (runOnce B ord s).entry

/-- Observable outcome of `Template.run()`:
* `dispatched` — number of futures submitted to the outer executor;
* `failures` — simulation indices whose future carried an exception, each
  reported by the `as_completed` loop;
* `record` — the shared record passed (implicitly, via `self`) to
  `exp_postprocess`;
* `progress` — final value of the progress counter;
* `expPostCalls` — how many times the `finally` block ran `exp_postprocess`. -/
structure ExpOutcome where
  dispatched : Nat
  failures : List Nat
  record : List (Nat × List Mem)
  progress : Nat
  expPostCalls : Nat
  deriving Repr, DecidableEq

/-- `Template.run()` when the outer executor is constructed successfully:
submit `run_once` for every `sim_ind in range(self.__n_experiment)`, wait for
all futures, report the failed ones, then run `exp_postprocess` once in the
`finally` block. -/
def runExp (B : Behavior) (ord : Nat → Nat → List Nat) (π : List Nat) :
    ExpOutcome :=
  ⟨B.nExp,
   (List.range B.nExp).filter fun s => (runOnce B ord s).raised,
   record B ord π,
   ((List.range B.nExp).map fun s => (runOnce B ord s).progress).sum,
   1⟩

/-- `Template.run()` including the top-level catch-all: when an
orchestrator-internal fault occurs (e.g. the executor constructor raises),
no simulation is dispatched, the exception is reported, and the `finally`
block still runs `exp_postprocess` on the empty record. -/
def runFull (B : Behavior) (ord : Nat → Nat → List Nat) (π : List Nat)
    (fault : Bool) : ExpOutcome :=
  if fault then ⟨0, [], [], 0, 1⟩ else runExp B ord π

/-- Events of one simulation's round loop, for the sequencing claims:
`start r` — the round-`r` iteration begins (executor built, tasks submitted);
`inc r` — `progress.update(1)` for round `r`;
`post r` — `round_postprocess` invoked for round `r`. -/
inductive Ev : Type
  | start (r : Nat)
  | inc (r : Nat)
  | post (r : Nat)
  deriving Repr, DecidableEq

/-- The round index an event belongs to. -/
def Ev.round : Ev → Nat
  | .start r => r
  | .inc r => r
  | .post r => r

/-- Event trace of the round loop over the remaining round indices, mirroring
`runRounds`: a width-0 executor raises right after the iteration starts; a
raising `round_postprocess` still follows the progress update; otherwise the
next iteration begins only after `round_postprocess` returned. -/
def traceRounds (B : Behavior) (s : Nat) : List Nat → List Ev
  | [] => []
  | r :: rs =>
    if width B.nAgent r = 0 then [.start r]
    else if B.postFail s r then [.start r, .inc r, .post r]
    else .start r :: .inc r :: .post r :: traceRounds B s rs

/-- Event trace of simulation `s`'s rounds `0 .. nRound-1` (empty when
`generate_agents` raised, since the loop is never entered). -/
def simTrace (B : Behavior) (s : Nat) : List Ev :=
  if B.genFail s then [] else traceRounds B s (List.range B.nRound)

/-! ## Concrete behaviours

Small concrete instantiations (3 agents, 6 rounds, 2 simulations) used to
evaluate the theorems on explicit inputs. -/

/-- Failure-free behaviour: `A = 3`, `R = 6`, `N = 2`. -/
def okB : Behavior :=
  ⟨3, 6, 2, fun _ => false, fun _ _ _ => true,
   fun s r i => s * 100 + r * 10 + i, fun _ _ => false, fun s => [[s]]⟩

/-- A completion order in which agent 2's future finishes first. -/
def jumbledOrd : Nat → Nat → List Nat := fun _ _ => [2, 0, 1]

/-- The in-index completion order. -/
def plainOrd : Nat → Nat → List Nat := fun _ _ => [0, 1, 2]

/-- Behaviour in which exactly one agent call fails: agent 1 in round 2 of
simulation 0. -/
def oneFailB : Behavior :=
  ⟨3, 6, 2, fun _ => false,
   fun s r i => decide ¬(s = 0 ∧ r = 2 ∧ i = 1),
   fun s r i => s * 100 + r * 10 + i, fun _ _ => false, fun s => [[s]]⟩

/-- Behaviour in which `round_postprocess` raises in round 4 of
simulation 0. -/
def postFailB : Behavior :=
  ⟨3, 6, 2, fun _ => false, fun _ _ _ => true,
   fun s r i => s * 100 + r * 10 + i,
   fun s r => decide (s = 0 ∧ r = 4), fun s => [[s]]⟩

/-- Behaviour in which `generate_agents` raises for simulation 1. -/
def genFailB : Behavior :=
  ⟨3, 6, 2, fun s => s == 1, fun _ _ _ => true,
   fun s r i => s * 100 + r * 10 + i, fun _ _ => false, fun s => [[s]]⟩

/-! ## Helper lemmas -/

/-- The agent indices appearing in the collected pairs form a sublist of the
completion order. -/
theorem collect_map_fst_sublist (B : Behavior) (o : List Nat) (s r : Nat) :
    ((collect B o s r).map Prod.fst).Sublist o := by
  induction o with
  | nil => simp [collect]
  | cons i o ih =>
    by_cases h : B.answerOk s r i = true
    · simpa [collect, h] using ih.cons₂ i
    · simp only [Bool.not_eq_true] at h
      simpa [collect, h] using ih.cons i

/-- A permutation of the completion order permutes the collected pairs. -/
theorem collect_perm (B : Behavior) {o₁ o₂ : List Nat} (h : o₁.Perm o₂)
    (s r : Nat) : (collect B o₁ s r).Perm (collect B o₂ s r) :=
  h.filterMap _

/-- `sortPairs` is a permutation of its input. -/
theorem sortPairs_perm (l : List (Nat × Res)) : (sortPairs l).Perm l :=
  List.perm_insertionSort keyLE l

/-- `sortPairs` sorts weakly by agent index. -/
theorem sortPairs_sorted (l : List (Nat × Res)) :
    (sortPairs l).Sorted keyLE :=
  List.sorted_insertionSort keyLE l

/-- A weakly key-sorted list with pairwise-distinct keys is strictly
key-sorted. -/
theorem sorted_keyLT_of_nodup {l : List (Nat × Res)}
    (hs : l.Sorted keyLE) (hn : (l.map Prod.fst).Nodup) :
    l.Sorted keyLT := by
  rw [List.Nodup, List.pairwise_map] at hn
  exact (hs.and hn).imp fun h => Nat.lt_of_le_of_ne h.1 h.2

/-- Two permuted pair lists with pairwise-distinct keys have the same sort:
the deterministic-reordering core of the round coordinator. -/
theorem sortPairs_eq_of_perm {l₁ l₂ : List (Nat × Res)} (hp : l₁.Perm l₂)
    (hn : (l₁.map Prod.fst).Nodup) : sortPairs l₁ = sortPairs l₂ := by
  have hperm : (sortPairs l₁).Perm (sortPairs l₂) :=
    (sortPairs_perm l₁).trans (hp.trans (sortPairs_perm l₂).symm)
  have hn₁ : ((sortPairs l₁).map Prod.fst).Nodup :=
    ((sortPairs_perm l₁).map Prod.fst).nodup_iff.mpr hn
  have hn₂ : ((sortPairs l₂).map Prod.fst).Nodup :=
    ((hperm.map Prod.fst).nodup_iff).mp hn₁
  exact List.eq_of_perm_of_sorted hperm
    (sorted_keyLT_of_nodup (sortPairs_sorted l₁) hn₁)
    (sorted_keyLT_of_nodup (sortPairs_sorted l₂) hn₂)

/-- The keys of a round's collected pairs are pairwise distinct whenever the
completion order is a permutation of `range nAgent` (each future yields its
own agent's index at most once). -/
theorem collect_nodup_keys (B : Behavior) {o : List Nat}
    (h : o.Perm (List.range B.nAgent)) (s r : Nat) :
    ((collect B o s r).map Prod.fst).Nodup :=
  (collect_map_fst_sublist B o s r).nodup
    (h.nodup_iff.mpr (List.nodup_range _))

/-- The RoundResult does not depend on the completion order of the agent
futures. -/
theorem roundResult_indep (B : Behavior) {o₁ o₂ : List Nat}
    (h₁ : o₁.Perm (List.range B.nAgent)) (h₂ : o₂.Perm (List.range B.nAgent))
    (s r : Nat) : roundResult B o₁ s r = roundResult B o₂ s r :=
  sortPairs_eq_of_perm (collect_perm B (h₁.trans h₂.symm) s r)
    (collect_nodup_keys B h₁ s r)

/-- The RoundResult's agent-index sequence is strictly ascending. -/
theorem roundResult_strict_sorted (B : Behavior) {o : List Nat}
    (h : o.Perm (List.range B.nAgent)) (s r : Nat) :
    ((roundResult B o s r).map Prod.fst).Sorted (· < ·) := by
  have hn : ((roundResult B o s r).map Prod.fst).Nodup :=
    ((sortPairs_perm _).map Prod.fst).nodup_iff.mpr (collect_nodup_keys B h s r)
  have hs := sorted_keyLT_of_nodup (sortPairs_sorted (collect B o s r)) hn
  rw [List.Sorted, List.pairwise_map]
  exact hs

/-- When every agent call of the round succeeds, nothing is dropped: the
collected list is exactly the completion order paired with the results. -/
theorem collect_all_ok (B : Behavior) (o : List Nat) (s r : Nat)
    (h : ∀ i ∈ o, B.answerOk s r i = true) :
    collect B o s r = o.map fun i => (i, B.answerVal s r i) := by
  induction o with
  | nil => rfl
  | cons i o ih =>
    have hi := h i (List.mem_cons_self i o)
    simp only [collect, List.filterMap_cons, hi, if_pos, List.map_cons] at *
    exact congrArg _ (ih fun j hj => h j (List.mem_cons_of_mem i hj))

/-- With a full completion order and no agent failure, the RoundResult has
length `nAgent`. -/
theorem roundResult_length_all_ok (B : Behavior) {o : List Nat}
    (ho : o.Perm (List.range B.nAgent)) (s r : Nat)
    (h : ∀ i ∈ o, B.answerOk s r i = true) :
    (roundResult B o s r).length = B.nAgent := by
  rw [roundResult, (sortPairs_perm _).length_eq, collect_all_ok B o s r h,
    List.length_map, ho.length_eq, List.length_range]

/-- With positive width and no `round_postprocess` failure on any listed
round, the loop visits every round: one postprocess call and one progress
update per round, no abort. -/
theorem runRounds_no_fail (B : Behavior) (ord : Nat → Nat → List Nat)
    (s : Nat) (rs : List Nat)
    (hw : ∀ r ∈ rs, width B.nAgent r ≠ 0)
    (hp : ∀ r ∈ rs, B.postFail s r = false) :
    runRounds B ord s rs =
      ⟨rs.map fun r => (r, roundResult B (ord s r) s r), rs.length, false⟩ := by
  induction rs with
  | nil => rfl
  | cons r rs ih =>
    have hwr := hw r (List.mem_cons_self r rs)
    have hpr := hp r (List.mem_cons_self r rs)
    rw [runRounds, if_neg hwr, if_neg (by simp [hpr]),
      ih (fun x hx => hw x (List.mem_cons_of_mem r hx))
         (fun x hx => hp x (List.mem_cons_of_mem r hx))]
    simp

/-- The loop up to and including the first raising `round_postprocess`:
every earlier round runs in full, the failing round is still counted and
still invoked, and the remaining rounds are abandoned. -/
theorem runRounds_post_fail (B : Behavior) (ord : Nat → Nat → List Nat)
    (s : Nat) (xs ys : List Nat) (r₀ : Nat)
    (hw : ∀ r ∈ xs, width B.nAgent r ≠ 0)
    (hp : ∀ r ∈ xs, B.postFail s r = false)
    (hw₀ : width B.nAgent r₀ ≠ 0) (hp₀ : B.postFail s r₀ = true) :
    runRounds B ord s (xs ++ r₀ :: ys) =
      ⟨(xs.map fun r => (r, roundResult B (ord s r) s r)) ++
         [(r₀, roundResult B (ord s r₀) s r₀)],
       xs.length + 1, true⟩ := by
  induction xs with
  | nil => simp [runRounds, hw₀, hp₀]
  | cons r xs ih =>
    have hwr := hw r (List.mem_cons_self r xs)
    have hpr := hp r (List.mem_cons_self r xs)
    rw [List.cons_append, runRounds, if_neg hwr, if_neg (by simp [hpr]),
      ih (fun x hx => hw x (List.mem_cons_of_mem r hx))
         (fun x hx => hp x (List.mem_cons_of_mem r hx))]
    simp [Nat.add_comm, Nat.add_left_comm]

/-- `run_once` of a simulation whose `generate_agents` raises: the exception
leaves `run_once` before the `try`, so no round, no progress, no fold-in. -/
theorem runOnce_genFail (B : Behavior) (ord : Nat → Nat → List Nat) {s : Nat}
    (h : B.genFail s = true) : runOnce B ord s = ⟨true, [], 0, 0, none⟩ := by
  rw [runOnce, if_pos h]

/-- `run_once` of a simulation whose `generate_agents` succeeds: the round
loop runs inside the `try`, and the `finally` block folds in exactly once. -/
theorem runOnce_ok (B : Behavior) (ord : Nat → Nat → List Nat) {s : Nat}
    (h : B.genFail s = false) :
    runOnce B ord s =
      ⟨false, (runRounds B ord s (List.range B.nRound)).posts,
       (runRounds B ord s (List.range B.nRound)).progress, 1,
       some (s, B.snap s)⟩ := by
  rw [runOnce, if_neg (by simp [h])]

/-- The fold-in entry of simulation `s`, as a function of `generate_agents`'
outcome alone. -/
theorem runOnce_entry (B : Behavior) (ord : Nat → Nat → List Nat) (s : Nat) :
    (runOnce B ord s).entry =
      if B.genFail s then none else some (s, B.snap s) := by
  by_cases h : B.genFail s = true
  · rw [runOnce_genFail B ord h, if_pos h]
  · rw [Bool.not_eq_true] at h
    rw [runOnce_ok B ord h, if_neg (by simp [h])]

/-- Peeling one lock acquisition off the record: a raising simulation
contributes nothing, a completing one contributes its single entry. -/
theorem record_cons (B : Behavior) (ord : Nat → Nat → List Nat) (s : Nat)
    (π : List Nat) :
    record B ord (s :: π) =
      if B.genFail s then record B ord π
      else (s, B.snap s) :: record B ord π := by
  by_cases h : B.genFail s = true
  · rw [record, List.filterMap_cons_none, if_pos h]
    · rfl
    · rw [runOnce_entry, if_pos h]
  · rw [Bool.not_eq_true] at h
    rw [record, List.filterMap_cons_some, if_neg (by simp [h])]
    · rfl
    · rw [runOnce_entry, if_neg (by simp [h])]

/-- The simulation indices present in the record, in lock order: exactly the
simulations whose `run_once` reached its `finally` block. -/
theorem record_map_fst (B : Behavior) (ord : Nat → Nat → List Nat)
    (π : List Nat) :
    (record B ord π).map Prod.fst = π.filter fun s => !B.genFail s := by
  induction π with
  | nil => rfl
  | cons s π ih =>
    rw [record_cons, List.filter_cons]
    by_cases h : B.genFail s = true
    · simp [h, ih]
    · rw [Bool.not_eq_true] at h
      simp [h, ih]

/-- When no `generate_agents` call in the lock order raises, the record is
one fold-in entry per simulation, in lock order. -/
theorem record_all_ok (B : Behavior) (ord : Nat → Nat → List Nat)
    {π : List Nat} (h : ∀ s ∈ π, B.genFail s = false) :
    record B ord π = π.map fun s => (s, B.snap s) := by
  induction π with
  | nil => rfl
  | cons s π ih =>
    have hs := h s (List.mem_cons_self s π)
    rw [record, List.filterMap_cons, runOnce_entry, if_neg (by simp [hs]),
      List.map_cons]
    exact congrArg _ (ih fun x hx => h x (List.mem_cons_of_mem s hx))

/-- Every event of the round-loop trace belongs to one of the listed
rounds. -/
theorem traceRounds_round_mem (B : Behavior) (s : Nat) (rs : List Nat) :
    ∀ e ∈ traceRounds B s rs, e.round ∈ rs := by
  induction rs with
  | nil => simp [traceRounds]
  | cons r rs ih =>
    intro e he
    rw [traceRounds] at he
    by_cases hw : width B.nAgent r = 0
    · rw [if_pos hw] at he
      simp only [List.mem_singleton] at he
      simp [he, Ev.round]
    · rw [if_neg hw] at he
      by_cases hp : B.postFail s r = true
      · rw [if_pos hp] at he
        simp only [List.mem_cons, List.not_mem_nil, or_false] at he
        rcases he with h | h | h <;> simp [h, Ev.round]
      · rw [if_neg hp] at he
        simp only [List.mem_cons] at he
        rcases he with h | h | h | h
        · simp [h, Ev.round]
        · simp [h, Ev.round]
        · simp [h, Ev.round]
        · exact List.mem_cons_of_mem r (ih e h)

/-- Along a strictly increasing round list, the trace's round tags are
nondecreasing position-by-position. -/
theorem traceRounds_pairwise (B : Behavior) (s : Nat) {rs : List Nat}
    (h : rs.Pairwise (· < ·)) :
    (traceRounds B s rs).Pairwise fun a b => a.round ≤ b.round := by
  induction rs with
  | nil => simp [traceRounds]
  | cons r rs ih =>
    rw [List.pairwise_cons] at h
    have hlt : ∀ e ∈ traceRounds B s rs, r ≤ e.round := fun e he =>
      Nat.le_of_lt (h.1 _ (traceRounds_round_mem B s rs e he))
    rw [traceRounds]
    by_cases hw : width B.nAgent r = 0
    · simp [if_pos hw]
    · rw [if_neg hw]
      by_cases hp : B.postFail s r = true
      · rw [if_pos hp]
        simp [Ev.round]
      · rw [if_neg hp]
        refine List.pairwise_cons.mpr ⟨?_, List.pairwise_cons.mpr ⟨?_,
          List.pairwise_cons.mpr ⟨?_, ih h.2⟩⟩⟩
        · intro e he
          simp only [List.mem_cons] at he
          rcases he with h' | h' | h'
          · simp [h', Ev.round]
          · simp [h', Ev.round]
          · exact hlt e h'
        · intro e he
          simp only [List.mem_cons] at he
          rcases he with h' | h'
          · simp [h', Ev.round]
          · exact hlt e h'
        · exact hlt

/-- The round loop is insensitive to the completion order of the agent
futures, as long as every future is drained exactly once per round. -/
theorem runRounds_congr (B : Behavior) {ord₁ ord₂ : Nat → Nat → List Nat}
    (h₁ : ∀ s r, (ord₁ s r).Perm (List.range B.nAgent))
    (h₂ : ∀ s r, (ord₂ s r).Perm (List.range B.nAgent)) (s : Nat)
    (rs : List Nat) : runRounds B ord₁ s rs = runRounds B ord₂ s rs := by
  induction rs with
  | nil => rfl
  | cons r rs ih =>
    have hrr := roundResult_indep B (h₁ s r) (h₂ s r) s r
    by_cases hw : width B.nAgent r = 0
    · rw [runRounds, if_pos hw, runRounds, if_pos hw]
    · by_cases hp : B.postFail s r = true
      · rw [runRounds, if_neg hw, runRounds, if_neg hw]
        simp only [if_pos hp, hrr]
      · rw [runRounds, if_neg hw, runRounds, if_neg hw]
        simp only [if_neg hp, hrr, ih]

/-- Every argument the loop passes to `round_postprocess` is the sorted
RoundResult of its own round. -/
theorem runRounds_posts_payload (B : Behavior) (ord : Nat → Nat → List Nat)
    (s : Nat) (rs : List Nat) :
    ∀ p ∈ (runRounds B ord s rs).posts,
      p.2 = roundResult B (ord s p.1) s p.1 := by
  induction rs with
  | nil => intro p hp; simp [runRounds] at hp
  | cons r rs ih =>
    intro p hp
    rw [runRounds] at hp
    by_cases hw : width B.nAgent r = 0
    · rw [if_pos hw] at hp
      simp at hp
    · rw [if_neg hw] at hp
      by_cases hpf : B.postFail s r = true
      · rw [if_pos hpf] at hp
        simp only [List.mem_singleton] at hp
        rw [hp]
      · rw [if_neg hpf] at hp
        simp only [List.mem_cons] at hp
        rcases hp with hp | hp
        · rw [hp]
        · exact ih p hp

/-- Summing a function that is constant on a list. -/
theorem sum_map_const {α : Type} (l : List α) (c : Nat) (f : α → Nat)
    (h : ∀ x ∈ l, f x = c) : (l.map f).sum = l.length * c := by
  induction l with
  | nil => simp
  | cons x l ih =>
    rw [List.map_cons, List.sum_cons, h x (List.mem_cons_self x l),
      ih fun y hy => h y (List.mem_cons_of_mem x hy), List.length_cons,
      Nat.succ_mul, Nat.add_comm]

/-- Every collected pair comes from a successful `answer` call. -/
theorem collect_fst_answerOk (B : Behavior) (o : List Nat) (s r : Nat) :
    ∀ p ∈ collect B o s r, B.answerOk s r p.1 = true := by
  intro p hp
  rw [collect, List.mem_filterMap] at hp
  obtain ⟨i, _, hi⟩ := hp
  by_cases h : B.answerOk s r i = true
  · rw [if_pos h] at hi
    cases hi
    exact h
  · rw [if_neg h] at hi
    cases hi

/-- Dropping exactly one failed future from an otherwise successful round
shrinks the collected list by one. -/
theorem collect_length_one_fail (B : Behavior) {o : List Nat} (s r i₀ : Nat)
    (ho : o.Nodup) (hmem : i₀ ∈ o)
    (hfail : B.answerOk s r i₀ = false)
    (hok : ∀ i ∈ o, i ≠ i₀ → B.answerOk s r i = true) :
    (collect B o s r).length = o.length - 1 := by
  induction o with
  | nil => cases hmem
  | cons j o ih =>
    rw [List.nodup_cons] at ho
    by_cases hj : j = i₀
    · subst hj
      rw [collect, List.filterMap_cons_none (by rw [hfail]; rfl)]
      rw [← collect, collect_all_ok B o s r
        fun i hi => hok i (List.mem_cons_of_mem j hi) fun h => ho.1 (h ▸ hi)]
      simp
    · have hjo : B.answerOk s r j = true :=
        hok j (List.mem_cons_self j o) hj
      have hio : i₀ ∈ o := by
        rcases List.mem_cons.mp hmem with h | h
        · exact absurd h.symm hj
        · exact h
      have hlen : 1 ≤ o.length := List.length_pos.mpr
        fun h => by rw [h] at hio; cases hio
      rw [collect, List.filterMap_cons_some (by rw [hjo]; rfl), ← collect,
        List.length_cons,
        ih ho.2 hio fun i hi => hok i (List.mem_cons_of_mem j hi),
        List.length_cons, Nat.succ_sub_one,
        Nat.sub_add_cancel hlen]

/-- A positive agent count keeps every round's executor width positive. -/
theorem width_ne_zero {a : Nat} (ha : 0 < a) (r : Nat) : width a r ≠ 0 := by
  rw [width]
  by_cases h : r < 4
  · rw [if_pos h]
    exact Nat.pos_iff_ne_zero.mp ha
  · rw [if_neg h]
    exact Nat.one_ne_zero

/-- The full-trace round tags are nondecreasing. -/
theorem simTrace_pairwise (B : Behavior) (s : Nat) :
    (simTrace B s).Pairwise fun a b => a.round ≤ b.round := by
  rw [simTrace]
  by_cases h : B.genFail s = true
  · rw [if_pos h]
    exact List.Pairwise.nil
  · rw [if_neg h]
    exact traceRounds_pairwise B s (List.pairwise_lt_range B.nRound)

/-- Projection of `run_once`'s postprocess calls. -/
theorem runOnce_posts (B : Behavior) (ord : Nat → Nat → List Nat) (s : Nat) :
    (runOnce B ord s).posts =
      if B.genFail s then []
      else (runRounds B ord s (List.range B.nRound)).posts := by
  by_cases h : B.genFail s = true
  · rw [runOnce_genFail B ord h, if_pos h]
  · rw [Bool.not_eq_true] at h
    rw [runOnce_ok B ord h, if_neg (by simp [h])]

/-- Projection of `run_once`'s progress updates. -/
theorem runOnce_progress (B : Behavior) (ord : Nat → Nat → List Nat)
    (s : Nat) :
    (runOnce B ord s).progress =
      if B.genFail s then 0
      else (runRounds B ord s (List.range B.nRound)).progress := by
  by_cases h : B.genFail s = true
  · rw [runOnce_genFail B ord h, if_pos h]
  · rw [Bool.not_eq_true] at h
    rw [runOnce_ok B ord h, if_neg (by simp [h])]

/-- Projection of whether `run_once` raised. -/
theorem runOnce_raised (B : Behavior) (ord : Nat → Nat → List Nat) (s : Nat) :
    (runOnce B ord s).raised = B.genFail s := by
  by_cases h : B.genFail s = true
  · rw [runOnce_genFail B ord h, h]
  · rw [Bool.not_eq_true] at h
    rw [runOnce_ok B ord h, h]

/-- With no failures anywhere, every simulation completes all of its rounds:
`nRound` progress updates and one postprocess call per round. -/
theorem runOnce_progress_no_fail (B : Behavior) (ord : Nat → Nat → List Nat)
    (s : Nat) (hA : 0 < B.nAgent) (hgen : B.genFail s = false)
    (hpost : ∀ r, B.postFail s r = false) :
    (runOnce B ord s).progress = B.nRound := by
  rw [runOnce_progress, if_neg (by simp [hgen]),
    runRounds_no_fail B ord s _ (fun r _ => width_ne_zero hA r)
      (fun r _ => hpost r)]
  exact List.length_range B.nRound

/-! ## The claims -/

/-- Claim C1: for every simulation and every round, the RoundResult handed to
`round_postprocess` has its agent indices sorted strictly ascending, and the
entire `run_once` outcome is identical for any two completion orders of the
agent futures within the rounds. -/
theorem C1_round_results_sorted_and_deterministic (B : Behavior)
    (ord₁ ord₂ : Nat → Nat → List Nat)
    (h₁ : ∀ s r, (ord₁ s r).Perm (List.range B.nAgent))
    (h₂ : ∀ s r, (ord₂ s r).Perm (List.range B.nAgent)) (s : Nat) :
    runOnce B ord₁ s = runOnce B ord₂ s ∧
      ∀ p ∈ (runOnce B ord₁ s).posts,
        (p.2.map Prod.fst).Sorted (· < ·) := by
  constructor
  · by_cases h : B.genFail s = true
    · rw [runOnce_genFail B ord₁ h, runOnce_genFail B ord₂ h]
    · rw [Bool.not_eq_true] at h
      rw [runOnce_ok B ord₁ h, runOnce_ok B ord₂ h,
        runRounds_congr B h₁ h₂ s]
  · intro p hp
    rw [runOnce_posts] at hp
    by_cases h : B.genFail s = true
    · rw [if_pos h] at hp
      cases hp
    · rw [Bool.not_eq_true] at h
      rw [if_neg (by simp [h])] at hp
      rw [runRounds_posts_payload B ord₁ s (List.range B.nRound) p hp]
      exact roundResult_strict_sorted B (h₁ s p.1) s p.1

/-- Concrete check of C1 at `A = 3`, `R = 6`: a jumbled completion order
yields the same `run_once` outcome as the in-index one, and the round-0
payload is strictly sorted. -/
theorem C1_witness :
    runOnce okB jumbledOrd 0 = runOnce okB plainOrd 0 ∧
      (([(0, 0), (1, 1), (2, 2)] : List (Nat × Res)).map Prod.fst).Sorted
        (· < ·) := by
  have h := C1_round_results_sorted_and_deterministic okB jumbledOrd plainOrd
    (fun _ _ => show ([2, 0, 1] : List Nat).Perm (List.range 3) by decide)
    (fun _ _ => show ([0, 1, 2] : List Nat).Perm (List.range 3) by decide) 0
  exact ⟨h.1, h.2 (0, [(0, 0), (1, 1), (2, 2)]) (by decide)⟩

/-- Claim C2: the coordinator's width is `a` (all agents concurrent) for
rounds `0..3` and exactly 1 (serial) from round 4 on. -/
theorem C2_width_policy (a r : Nat) :
    (r < 4 → width a r = a) ∧ (4 ≤ r → width a r = 1) := by
  constructor
  · intro h
    rw [width, if_pos h]
  · intro h
    rw [width, if_neg (Nat.not_lt.mpr h)]

/-- Concrete check of C2 on both sides of the fixed threshold. -/
theorem C2_witness : width 3 2 = 3 ∧ width 3 4 = 1 :=
  ⟨(C2_width_policy 3 2).1 (by decide), (C2_width_policy 3 4).2 (by decide)⟩

/-- Claim C5: whenever `generate_agents` returns, the `finally` block runs
exactly once — one snapshot-and-fold-in per simulation — no matter whether
the rounds all succeeded or some round raised. -/
theorem C5_cleanup_exactly_once (B : Behavior) (ord : Nat → Nat → List Nat)
    (s : Nat) (h : B.genFail s = false) :
    (runOnce B ord s).folds = 1 ∧
      (runOnce B ord s).entry = some (s, B.snap s) := by
  rw [runOnce_ok B ord h]
  exact ⟨rfl, rfl⟩

/-- Concrete check of C5 on a behaviour whose round 4 postprocess raises:
the fold-in still happens exactly once. -/
theorem C5_witness :
    (runOnce postFailB plainOrd 0).folds = 1 ∧
      (runOnce postFailB plainOrd 0).entry = some (0, postFailB.snap 0) :=
  C5_cleanup_exactly_once postFailB plainOrd 0 (by decide)

/-- Claim C9: a raising `generate_agents` sits before the `try`, so the
simulation runs no round, takes no snapshot and adds no fold-in entry; the
exception surfaces as a reported simulation failure and the record holds no
entry for that index. -/
theorem C9_genFail_bypasses_cleanup (B : Behavior)
    (ord : Nat → Nat → List Nat) (π : List Nat) (s : Nat)
    (h : B.genFail s = true) (hs : s < B.nExp) :
    runOnce B ord s = ⟨true, [], 0, 0, none⟩ ∧
      s ∈ (runExp B ord π).failures ∧
      ∀ e ∈ record B ord π, e.1 ≠ s := by
  refine ⟨runOnce_genFail B ord h, ?_, ?_⟩
  · exact List.mem_filter.mpr ⟨List.mem_range.mpr hs,
      by rw [runOnce_genFail B ord h]⟩
  · intro e he
    rw [record, List.mem_filterMap] at he
    obtain ⟨x, _, hex⟩ := he
    rw [runOnce_entry] at hex
    by_cases hgx : B.genFail x = true
    · rw [if_pos hgx] at hex
      cases hex
    · rw [Bool.not_eq_true] at hgx
      rw [if_neg (by simp [hgx])] at hex
      cases hex
      intro heq
      have hx : x = s := heq
      rw [hx, h] at hgx
      cases hgx

/-- Concrete check of C9: simulation 1's `generate_agents` raises; it is
reported, and the record (here holding only simulation 0's entry) has no
entry for index 1. -/
theorem C9_witness :
    runOnce genFailB plainOrd 1 = ⟨true, [], 0, 0, none⟩ ∧
      1 ∈ (runExp genFailB plainOrd [0, 1]).failures ∧
      ((0, genFailB.snap 0) : Nat × List Mem).1 ≠ 1 := by
  have h := C9_genFail_bypasses_cleanup genFailB plainOrd [0, 1] 1
    (by decide) (by decide)
  exact ⟨h.1, h.2.1, h.2.2 (0, genFailB.snap 0) (by decide)⟩

/-- Claim C3: with `A` agents, `R` rounds, `N` simulations and no failure of
any kind (every `generate_agents`, `answer` and `round_postprocess` call
succeeds, and no round has a zero-width executor), every RoundResult handed
to `round_postprocess` has length exactly `A`, the final progress count is
exactly `N * R`, and the record ends with exactly `N` fold-in entries, one
per simulation index. -/
theorem C3_completeness_no_failures (B : Behavior)
    (ord : Nat → Nat → List Nat) (π : List Nat)
    (hA : 0 < B.nAgent)
    (hgen : ∀ s, B.genFail s = false)
    (hans : ∀ s r i, B.answerOk s r i = true)
    (hpost : ∀ s r, B.postFail s r = false)
    (hord : ∀ s r, (ord s r).Perm (List.range B.nAgent))
    (hπ : π.Perm (List.range B.nExp)) :
    (∀ s, ∀ p ∈ (runOnce B ord s).posts, p.2.length = B.nAgent) ∧
      (runExp B ord π).progress = B.nExp * B.nRound ∧
      (runExp B ord π).record.length = B.nExp ∧
      ((runExp B ord π).record.map Prod.fst).Perm (List.range B.nExp) := by
  have hrec : record B ord π = π.map fun s => (s, B.snap s) :=
    record_all_ok B ord fun s _ => hgen s
  refine ⟨?_, ?_, ?_, ?_⟩
  · intro s p hp
    rw [runOnce_posts, if_neg (by simp [hgen s])] at hp
    rw [runRounds_posts_payload B ord s _ p hp]
    exact roundResult_length_all_ok B (hord s p.1) s p.1
      fun i _ => hans s p.1 i
  · show ((List.range B.nExp).map fun s => (runOnce B ord s).progress).sum = _
    rw [sum_map_const _ B.nRound _ fun s _ =>
      runOnce_progress_no_fail B ord s hA (hgen s) (hpost s),
      List.length_range]
  · show (record B ord π).length = B.nExp
    rw [hrec, List.length_map, hπ.length_eq, List.length_range]
  · show ((record B ord π).map Prod.fst).Perm (List.range B.nExp)
    rw [record_map_fst, List.filter_eq_self.mpr fun a _ => by rw [hgen a]; rfl]
    exact hπ

/-- Concrete check of C3 at the spec's example `A = 3`, `R = 6`, `N = 2`:
round-0 RoundResult length 3, final progress 12, record of 2 entries whose
indices are `0` and `1`. -/
theorem C3_witness :
    (([(0, 0), (1, 1), (2, 2)] : List (Nat × Res)).length = 3) ∧
      (runExp okB plainOrd [1, 0]).progress = 12 ∧
      (runExp okB plainOrd [1, 0]).record.length = 2 ∧
      ((runExp okB plainOrd [1, 0]).record.map Prod.fst).Perm
        (List.range 2) := by
  have h := C3_completeness_no_failures okB plainOrd [1, 0] (by decide)
    (fun _ => rfl) (fun _ _ _ => rfl) (fun _ _ => rfl)
    (fun _ _ => show ([0, 1, 2] : List Nat).Perm (List.range 3) by decide)
    (show ([1, 0] : List Nat).Perm (List.range 2) by decide)
  exact ⟨h.1 0 (0, [(0, 0), (1, 1), (2, 2)]) (by decide), h.2.1, h.2.2.1,
    h.2.2.2⟩

/-- Claim C4: when exactly one agent call (simulation `s₀`, round `r₀`,
agent `i₀`) errors and nothing else fails, that round's RoundResult has
length `A - 1` with index `i₀` simply absent, every other round of every
simulation still produces a full length-`A` RoundResult, and the experiment
still completes all `N * R` rounds. -/
theorem C4_single_agent_failure (B : Behavior) (ord : Nat → Nat → List Nat)
    (π : List Nat) (s₀ r₀ i₀ : Nat)
    (hA : 0 < B.nAgent) (hi : i₀ < B.nAgent) (hr₀ : r₀ < B.nRound)
    (hgen : ∀ s, B.genFail s = false)
    (hfail : B.answerOk s₀ r₀ i₀ = false)
    (hok : ∀ s r i, ¬(s = s₀ ∧ r = r₀ ∧ i = i₀) → B.answerOk s r i = true)
    (hpost : ∀ s r, B.postFail s r = false)
    (hord : ∀ s r, (ord s r).Perm (List.range B.nAgent)) :
    ((r₀, roundResult B (ord s₀ r₀) s₀ r₀) ∈ (runOnce B ord s₀).posts ∧
       (roundResult B (ord s₀ r₀) s₀ r₀).length = B.nAgent - 1 ∧
       i₀ ∉ (roundResult B (ord s₀ r₀) s₀ r₀).map Prod.fst) ∧
      (∀ s, ∀ p ∈ (runOnce B ord s).posts, ¬(s = s₀ ∧ p.1 = r₀) →
        p.2.length = B.nAgent) ∧
      (runExp B ord π).progress = B.nExp * B.nRound := by
  have hno : ∀ s, runRounds B ord s (List.range B.nRound) =
      ⟨(List.range B.nRound).map fun r => (r, roundResult B (ord s r) s r),
       (List.range B.nRound).length, false⟩ := fun s =>
    runRounds_no_fail B ord s _ (fun r _ => width_ne_zero hA r)
      (fun r _ => hpost s r)
  refine ⟨⟨?_, ?_, ?_⟩, ?_, ?_⟩
  · rw [runOnce_posts, if_neg (by simp [hgen s₀]), hno s₀]
    exact List.mem_map.mpr ⟨r₀, List.mem_range.mpr hr₀, rfl⟩
  · have hnodup : (ord s₀ r₀).Nodup :=
      (hord s₀ r₀).nodup_iff.mpr (List.nodup_range _)
    have hmem : i₀ ∈ ord s₀ r₀ :=
      (hord s₀ r₀).mem_iff.mpr (List.mem_range.mpr hi)
    rw [roundResult, (sortPairs_perm _).length_eq,
      collect_length_one_fail B s₀ r₀ i₀ hnodup hmem hfail
        (fun i _ hne => hok s₀ r₀ i fun hc => hne hc.2.2),
      (hord s₀ r₀).length_eq, List.length_range]
  · intro hmem'
    rw [List.mem_map] at hmem'
    obtain ⟨p, hp, hp1⟩ := hmem'
    rw [roundResult] at hp
    have hp' : p ∈ collect B (ord s₀ r₀) s₀ r₀ :=
      (sortPairs_perm _).mem_iff.mp hp
    have hok' := collect_fst_answerOk B (ord s₀ r₀) s₀ r₀ p hp'
    rw [hp1, hfail] at hok'
    cases hok'
  · intro s p hp hne
    rw [runOnce_posts, if_neg (by simp [hgen s])] at hp
    rw [runRounds_posts_payload B ord s _ p hp]
    exact roundResult_length_all_ok B (hord s p.1) s p.1
      fun i _ => hok s p.1 i fun hc => hne ⟨hc.1, hc.2.1⟩
  · show ((List.range B.nExp).map fun s => (runOnce B ord s).progress).sum = _
    rw [sum_map_const _ B.nRound _ fun s _ =>
      runOnce_progress_no_fail B ord s hA (hgen s) (hpost s),
      List.length_range]

/-- Concrete check of C4: agent 1 fails in round 2 of simulation 0 of
`oneFailB`; that RoundResult has length 2 and no index 1, round 3 of
simulation 0 still has length 3, and the experiment reaches all 12
rounds. -/
theorem C4_witness :
    ((2, roundResult oneFailB (plainOrd 0 2) 0 2) ∈
        (runOnce oneFailB plainOrd 0).posts ∧
       (roundResult oneFailB (plainOrd 0 2) 0 2).length = 2 ∧
       1 ∉ (roundResult oneFailB (plainOrd 0 2) 0 2).map Prod.fst) ∧
      (([(0, 30), (1, 31), (2, 32)] : List (Nat × Res)).length = 3) ∧
      (runExp oneFailB plainOrd [0, 1]).progress = 12 := by
  have h := C4_single_agent_failure oneFailB plainOrd [0, 1] 0 2 1
    (by decide) (by decide) (by decide) (fun _ => rfl) (by decide)
    (fun s r i hne => decide_eq_true hne) (fun _ _ => rfl)
    (fun _ _ => show ([0, 1, 2] : List Nat).Perm (List.range 3) by decide)
  exact ⟨h.1,
    h.2.1 0 (3, [(0, 30), (1, 31), (2, 32)]) (by decide) (by decide), h.2.2⟩

/-- Claim C10: `progress.update(1)` precedes `round_postprocess`, so a round
whose postprocessing raises is still counted: with the first postprocess
failure at round `r₀`, the simulation's progress is `r₀ + 1`, rounds
`0 .. r₀` were all handed to `round_postprocess` (including the failing
round itself), and the remaining rounds are abandoned. -/
theorem C10_progress_counted_before_postprocess (B : Behavior)
    (ord : Nat → Nat → List Nat) (s r₀ : Nat)
    (hA : 0 < B.nAgent) (hgen : B.genFail s = false)
    (hr : r₀ < B.nRound) (hpost : B.postFail s r₀ = true)
    (hprev : ∀ r, r < r₀ → B.postFail s r = false) :
    (runOnce B ord s).progress = r₀ + 1 ∧
      (runOnce B ord s).posts.map Prod.fst = List.range (r₀ + 1) ∧
      (r₀, roundResult B (ord s r₀) s r₀) ∈ (runOnce B ord s).posts := by
  obtain ⟨k, hk⟩ : ∃ k, B.nRound = (r₀ + 1) + k :=
    ⟨B.nRound - (r₀ + 1), (Nat.add_sub_cancel' hr).symm⟩
  have hsplit : List.range B.nRound =
      List.range r₀ ++ r₀ :: ((List.range k).map fun x => (r₀ + 1) + x) := by
    rw [hk, List.range_add, List.range_succ, List.append_assoc,
      List.singleton_append]
  have hrun := runRounds_post_fail B ord s (List.range r₀)
    ((List.range k).map fun x => (r₀ + 1) + x) r₀
    (fun r _ => width_ne_zero hA r)
    (fun r hrr => hprev r (List.mem_range.mp hrr))
    (width_ne_zero hA r₀) hpost
  rw [← hsplit] at hrun
  refine ⟨?_, ?_, ?_⟩
  · rw [runOnce_progress, if_neg (by simp [hgen]), hrun, List.length_range]
  · rw [runOnce_posts, if_neg (by simp [hgen]), hrun]
    show ((List.range r₀).map _ ++ _).map Prod.fst = _
    rw [List.map_append, List.map_map, List.range_succ,
      show (Prod.fst ∘ fun r => (r, roundResult B (ord s r) s r)) = id from
        rfl, List.map_id]
    simp
  · rw [runOnce_posts, if_neg (by simp [hgen]), hrun]
    exact List.mem_append_right _ (List.mem_singleton.mpr rfl)

/-- Concrete check of C10 on `postFailB`, whose simulation-0 postprocess
raises in round 4: progress is 5, rounds 0–4 were all postprocessed, and
round 4's RoundResult was handed over. -/
theorem C10_witness :
    (runOnce postFailB plainOrd 0).progress = 5 ∧
      (runOnce postFailB plainOrd 0).posts.map Prod.fst = List.range 5 ∧
      (4, roundResult postFailB (plainOrd 0 4) 0 4) ∈
        (runOnce postFailB plainOrd 0).posts :=
  C10_progress_counted_before_postprocess postFailB plainOrd 0 4
    (by decide) rfl (by decide) (by decide)
    (fun r hr => decide_eq_false fun hc => Nat.lt_irrefl 4 (hc.2 ▸ hr))

/-- Claim C6: `run()` dispatches exactly `N` simulation tasks, lets every
simulation reach its own terminal state regardless of sibling failures,
reports exactly the failed ones, and runs `exp_postprocess` exactly once —
also on the orchestrator-fault path, where the partially populated record is
what finalization sees. -/
theorem C6_orchestrator_dispatch_and_finalize (B : Behavior)
    (ord : Nat → Nat → List Nat) (π : List Nat) (fault : Bool) :
    (runFull B ord π fault).expPostCalls = 1 ∧
      (fault = false →
        (runFull B ord π fault).dispatched = B.nExp ∧
        (runFull B ord π fault).failures =
          (List.range B.nExp).filter (fun s => B.genFail s) ∧
        (∀ s, s < B.nExp → B.genFail s = false →
          (runOnce B ord s).folds = 1) ∧
        (runFull B ord π fault).record.map Prod.fst =
          π.filter fun s => !B.genFail s) := by
  cases fault with
  | true =>
    exact ⟨rfl, fun h => by cases h⟩
  | false =>
    refine ⟨rfl, fun _ => ⟨rfl, ?_, ?_, ?_⟩⟩
    · show ((List.range B.nExp).filter fun s => (runOnce B ord s).raised) = _
      exact List.filter_congr fun x _ => runOnce_raised B ord x
    · intro s _ hs
      rw [runOnce_ok B ord hs]
    · show (record B ord π).map Prod.fst = _
      exact record_map_fst B ord π

/-- Concrete check of C6 on `genFailB` (simulation 1 raises): two tasks
dispatched, failure `[1]` reported, simulation 0 still folds in, the record
holds only index 0, finalization runs once — and once more on the
orchestrator-fault path. -/
theorem C6_witness :
    (runFull genFailB plainOrd [0, 1] false).expPostCalls = 1 ∧
      (runFull genFailB plainOrd [0, 1] false).dispatched = 2 ∧
      (runFull genFailB plainOrd [0, 1] false).failures = [1] ∧
      (runOnce genFailB plainOrd 0).folds = 1 ∧
      (runFull genFailB plainOrd [0, 1] false).record.map Prod.fst = [0] ∧
      (runFull genFailB plainOrd [0, 1] true).expPostCalls = 1 := by
  have h := C6_orchestrator_dispatch_and_finalize genFailB plainOrd
    [0, 1] false
  have h' := C6_orchestrator_dispatch_and_finalize genFailB plainOrd
    [0, 1] true
  exact ⟨h.1, (h.2 rfl).1, (h.2 rfl).2.1, (h.2 rfl).2.2.1 0 (by decide) rfl,
    (h.2 rfl).2.2.2, h'.1⟩

/-- Claim C7: within one simulation the rounds are strictly sequential — in
the event trace, every event of round `r + 1` (its start included) occurs
strictly after every event of round `r` (its progress update and its
`round_postprocess` call included). -/
theorem C7_rounds_strictly_sequential (B : Behavior) (s r : Nat)
    (i j : Fin (simTrace B s).length)
    (hi : ((simTrace B s).get i).round = r + 1)
    (hj : ((simTrace B s).get j).round = r) :
    j < i := by
  have hp := List.pairwise_iff_get.mp (simTrace_pairwise B s)
  by_contra hji
  rw [not_lt] at hji
  rcases lt_or_eq_of_le hji with hlt | heq
  · have hle := hp i j hlt
    rw [hi, hj] at hle
    exact Nat.not_succ_le_self r hle
  · rw [heq, hj] at hi
    exact Nat.succ_ne_self r hi.symm

/-- Concrete check of C7: in `okB`'s trace for simulation 0, the start of
round 1 (position 3) comes after the postprocess of round 0 (position 2). -/
theorem C7_witness :
    (⟨2, by decide⟩ : Fin (simTrace okB 0).length) < ⟨3, by decide⟩ :=
  C7_rounds_strictly_sequential okB 0 0 ⟨3, by decide⟩ ⟨2, by decide⟩
    (by decide) (by decide)

/-- Claim C8: fold-ins are serialized by the record lock, so for every order
in which the simulations may acquire the lock the record ends with exactly
`N` entries, one per simulation index, with no entry lost or duplicated —
and any two acquisition orders yield the same multiset of entries. -/
theorem C8_foldin_serialized (B : Behavior) (ord : Nat → Nat → List Nat)
    (π₁ π₂ : List Nat)
    (h₁ : π₁.Perm (List.range B.nExp)) (h₂ : π₂.Perm (List.range B.nExp))
    (hgen : ∀ s, B.genFail s = false) :
    (record B ord π₁).length = B.nExp ∧
      ((record B ord π₁).map Prod.fst).Nodup ∧
      ((record B ord π₁).map Prod.fst).Perm (List.range B.nExp) ∧
      (record B ord π₁).Perm (record B ord π₂) := by
  have hr₁ : record B ord π₁ = π₁.map fun s => (s, B.snap s) :=
    record_all_ok B ord fun s _ => hgen s
  have hr₂ : record B ord π₂ = π₂.map fun s => (s, B.snap s) :=
    record_all_ok B ord fun s _ => hgen s
  have hfst : (record B ord π₁).map Prod.fst = π₁ := by
    rw [record_map_fst, List.filter_eq_self.mpr fun a _ => by rw [hgen a]; rfl]
  refine ⟨?_, ?_, ?_, ?_⟩
  · rw [hr₁, List.length_map, h₁.length_eq, List.length_range]
  · rw [hfst]
    exact h₁.nodup_iff.mpr (List.nodup_range _)
  · rw [hfst]
    exact h₁
  · rw [hr₁, hr₂]
    exact (h₁.trans h₂.symm).map _

/-- Concrete check of C8 with the two possible lock orders of `okB`'s two
simulations: both give a 2-entry record over indices `{0, 1}`, equal up to
permutation. -/
theorem C8_witness :
    (record okB plainOrd [1, 0]).length = 2 ∧
      ((record okB plainOrd [1, 0]).map Prod.fst).Nodup ∧
      ((record okB plainOrd [1, 0]).map Prod.fst).Perm (List.range 2) ∧
      (record okB plainOrd [1, 0]).Perm (record okB plainOrd [0, 1]) := by
  have h := C8_foldin_serialized okB plainOrd [1, 0] [0, 1]
    (show ([1, 0] : List Nat).Perm (List.range 2) by decide)
    (show ([0, 1] : List Nat).Perm (List.range 2) by decide)
    (fun _ => rfl)
  exact ⟨h.1, h.2.1, h.2.2.1, h.2.2.2⟩

end ConsensusLLM
